import Mathlib

/-!
Verification of the DKD ("Dao-Ke-Dao") message-object model.

The Go sources represent every message (Instant / Secure / Reliable) as a
string-keyed dictionary.  We embed such dictionaries as association lists
over a small value type, and translate the message transformations
(`Encrypt`, `Sign`, `Verify`, `Split`, `Trim`, the accessors and the
factory parsers) field by field from the Go code.  The cryptographic and
identity work is performed by an external delegate in the source; we model
the delegate as a structure of opaque functions, exactly mirroring the Go
call signatures (identifiers are modelled by their wire-format strings,
which is how the code itself indexes the per-member key table).
-/

namespace DKD

/-- Decoded binary data (Go `[]byte`); `none` at the call sites below models a nil slice. -/
abbrev Bytes := List Nat

/-- Symmetric password handle (opaque to the core; only the delegate interprets it). -/
abbrev Password := Nat

/-- A field value of a message dictionary: a string (identifiers, base64
payloads), an integer (timestamps, type codes), or a string-to-string table
(the per-member `keys` map; also used for opaque nested objects such as a
content body, whose internals the core never inspects). -/
inductive Value where
  | vStr (s : String)
  | vInt (n : Int)
  | vMap (entries : List (String × String))
  deriving DecidableEq, Repr

/-- A message's backing map (Go `map[string]interface{}`).  Go maps are
unordered with unique keys; the canonical operations below keep at most one
entry per key, so list equality coincides with map equality. -/
abbrev MsgMap := List (String × Value)

/-- Field lookup (Go `m[k]`, `nil` for an absent key). -/
def mget (k : String) : MsgMap → Option Value
  | [] => none
  | (k1, v) :: rest => if k1 = k then some v else mget k rest

/-- Field removal (Go `delete(m, k)`). -/
def mdel (k : String) : MsgMap → MsgMap
  | [] => []
  | (k1, v) :: rest => if k1 = k then mdel k rest else (k1, v) :: mdel k rest

/-- Field update (Go `m[k] = v`). -/
def mset (k : String) (v : Value) (m : MsgMap) : MsgMap :=
  mdel k m ++ [(k, v)]

/-- Key-presence test (Go `m[k] != nil` / `_, exists := m[k]`; the wire
format never stores a nil value under a present key). -/
def hasKey (k : String) (m : MsgMap) : Bool :=
  (mget k m).isSome

/-- String-typed field access: the Go code reads a field and type-asserts
it to `string` (`base64.(string)`). -/
def mgetStr (k : String) (m : MsgMap) : Option String :=
  match mget k m with
  | some (Value.vStr s) => some s
  | _ => none

/-- Go map lookup in a `map[string]string`, returning the zero value `""`
when the key is absent (`base64 := keys[member.String()]`). -/
def goGet (k : String) : List (String × String) → String
  | [] => ""
  | (k1, v) :: rest => if k1 = k then v else goGet k rest

/-- Whether a `map[string]string` holds an entry under `k` (possibly empty). -/
def keysHasEntry (k : String) : List (String × String) → Bool
  | [] => false
  | (k1, _) :: rest => if k1 = k then true else keysHasEntry k rest

/-- The `keys` table of a message (`EncryptedKeys`): the `"keys"` field when
present and well-typed, else the empty table (Go substitutes a fresh map). -/
def keysOf (m : MsgMap) : List (String × String) :=
  match mget "keys" m with
  | some (Value.vMap ks) => ks
  | _ => []

/-- The `"keys"` field is absent or is a string-to-string table (any other
shape makes the Go type assertion `keys.(map[string]string)` panic). -/
def keysWellTyped (m : MsgMap) : Bool :=
  match mget "keys" m with
  | none => true
  | some (Value.vMap _) => true
  | some _ => false

/-- The external message delegate (crypto / codec / identity callbacks).
Each field mirrors one Go delegate method used by the transformations, with
the same arguments: binary payloads, the identifier involved (as its wire
string, `none` when the Go code would pass a nil identifier), and the
message map the delegate is invoked on.  `Option` results model methods
that may return a nil slice. -/
structure Delegate where
  serializeContent : Option Value → Password → MsgMap → Bytes
  encryptContent : Bytes → Password → MsgMap → Bytes
  encodeData : Bytes → MsgMap → String
  serializeKey : Password → MsgMap → Option Bytes
  encryptKey : Bytes → Option String → MsgMap → Option Bytes
  encodeKey : Bytes → MsgMap → String
  decodeData : String → MsgMap → Option Bytes
  decodeKey : String → MsgMap → Option Bytes
  signData : Option Bytes → Option String → MsgMap → Bytes
  encodeSignature : Bytes → MsgMap → String
  decodeSignature : Option Value → MsgMap → Option Bytes
  verifyDataSignature : Bytes → Bytes → Option String → MsgMap → Bool

/-- `EncryptedMessage.EncryptedKey`: read the `"key"` field; when absent,
fall back to the `"keys"` table under the receiver's string identifier
(Go's lookup yields `""` when the entry is missing, and that empty string —
being a non-nil value — is still handed to `DecodeKey`); decode whatever
was found.  `none` covers both a nil result and the paths on which the Go
code would panic on a type assertion or a nil receiver. -/
def EncryptedKey (d : Delegate) (m : MsgMap) : Option Bytes :=
  match mget "key" m with
  | some (Value.vStr b) => d.decodeKey b m
  | some _ => none
  | none =>
    match mget "keys" m with
    | some (Value.vMap ks) =>
      match mgetStr "receiver" m with
      | some rcv => d.decodeKey (goGet rcv ks) m
      | none => none
    | _ => none

/-- `RelayMessageFactory.ParseReliableMessage`: reject the map when any of
`sender`, `data`, `signature` is missing; otherwise the resulting message
wraps the map unchanged. -/
def ParseReliableMessage (m : MsgMap) : Option MsgMap :=
  if hasKey "sender" m && hasKey "data" m && hasKey "signature" m then some m else none

/-- `MessageEnvelopeFactory.ParseEnvelope`: reject when `sender` is missing. -/
def ParseEnvelope (m : MsgMap) : Option MsgMap :=
  if hasKey "sender" m then some m else none

/-- `PlainMessageFactory.ParseInstantMessage`: reject when `content` is missing. -/
def ParseInstantMessage (m : MsgMap) : Option MsgMap :=
  if hasKey "content" m then some m else none

/-- Result of the secure-message parse dispatch: the reliable variant
(`NewReliableMessage`) or the plain secure variant (`NewSecureMessage`),
each wrapping the raw map unchanged. -/
inductive ParsedSecure where
  | reliable (m : MsgMap)
  | plain (m : MsgMap)
  deriving DecidableEq, Repr

/-- `EncryptedMessageFactory.ParseSecureMessage`: dispatch on the presence
of the `signature` field; no mandatory-field checks are applied. -/
def ParseSecureMessage (m : MsgMap) : ParsedSecure :=
  if hasKey "signature" m then ParsedSecure.reliable m else ParsedSecure.plain m

/-- Per-member key-encryption loop of `PlainMessage.Encrypt` (group
branch): members whose `EncryptKey` yields nothing are skipped; successful
members contribute an encoded entry under their string identifier. -/
def encryptMemberKeys (d : Delegate) (key : Bytes) (mems : List String) (m : MsgMap) :
    List (String × String) :=
  match mems with
  | [] => []
  | member :: rest =>
    match d.encryptKey key (some member) m with
    | none => encryptMemberKeys d key rest m
    | some ek => (member, d.encodeKey ek m) :: encryptMemberKeys d key rest m

/-- The first stage of `PlainMessage.Encrypt`: serialize, symmetrically
encrypt and base-encode the content, remove `content` and store the result
as `data`. -/
def encryptedInfo (d : Delegate) (pw : Password) (m : MsgMap) : MsgMap :=
  mset "data"
    (Value.vStr (d.encodeData (d.encryptContent (d.serializeContent (mget "content" m) pw m) pw m) m))
    (mdel "content" m)

/-- `PlainMessage.Encrypt`: build `encryptedInfo`, then attach the
symmetric key, either as `key` (personal message, `members = none`; `none`
overall when the receiver's public key is unavailable) or as `keys` (group
message, one entry per member whose key encryption succeeded, the field
omitted when none succeeded).  A nil serialized key (broadcast / reused
key) attaches nothing.  The secure factory wraps the final map unchanged. -/
def Encrypt (d : Delegate) (pw : Password) (m : MsgMap) (members : Option (List String)) :
    Option MsgMap :=
  match d.serializeKey pw m with
  | none => some (encryptedInfo d pw m)
  | some key =>
    match members with
    | none =>
      match d.encryptKey key (mgetStr "receiver" m) m with
      | none => none
      | some ek => some (mset "key" (Value.vStr (d.encodeKey ek m)) (encryptedInfo d pw m))
    | some mems =>
      if (encryptMemberKeys d key mems m).isEmpty
      then some (encryptedInfo d pw m)
      else some (mset "keys" (Value.vMap (encryptMemberKeys d key mems m)) (encryptedInfo d pw m))

/-- The base64 signature string computed by `EncryptedMessage.Sign`:
decode the `data` field, sign it with the sender's private key, encode. -/
def signedB64 (d : Delegate) (m : MsgMap) (ds : String) : String :=
  d.encodeSignature (d.signData (d.decodeData ds m) (mgetStr "sender" m) m) m

/-- The map of the reliable message built by `EncryptedMessage.Sign`:
the source map plus the `signature` field. -/
def signedMap (d : Delegate) (m : MsgMap) (ds : String) : MsgMap :=
  mset "signature" (Value.vStr (signedB64 d m ds)) m

/-- `EncryptedMessage.Sign`: sign the encrypted data, add `signature`, and
run the result through `ReliableMessageParse` (which checks `sender`,
`data`, `signature`).  `none` models both a parse rejection and the panic
on a missing or non-string `data` field. -/
def Sign (d : Delegate) (m : MsgMap) : Option MsgMap :=
  match mget "data" m with
  | some (Value.vStr ds) => ParseReliableMessage (signedMap d m ds)
  | _ => none

/-- Result of `RelayMessage.Verify`: the secure message's map on success,
`rejected` (a nil result, not a raised failure) when the delegate's
signature check returns false, `panicked` when `data` or `signature` does
not decode. -/
inductive VerifyResult where
  | ok (m : MsgMap)
  | rejected
  | panicked
  deriving DecidableEq, Repr

/-- `RelayMessage.Verify`: decode `data` and `signature` (panicking when
either yields nothing), ask the delegate to verify, and on success return
the map with the `signature` field removed. -/
def Verify (d : Delegate) (m : MsgMap) : VerifyResult :=
  match mget "data" m with
  | some (Value.vStr ds) =>
    match d.decodeData ds m with
    | none => VerifyResult.panicked
    | some db =>
      match d.decodeSignature (mget "signature" m) m with
      | none => VerifyResult.panicked
      | some sg =>
        if d.verifyDataSignature db sg (mgetStr "sender" m) m
        then VerifyResult.ok (mdel "signature" m)
        else VerifyResult.rejected
  | _ => VerifyResult.panicked

/-- One iteration of the `EncryptedMessage.Split` loop: rewrite `receiver`
to the member and set `key` from the saved `keys` table (removing any
stale `key` when the looked-up string is empty). -/
def splitStep (ks : List (String × String)) (info : MsgMap) (member : String) : MsgMap :=
  if goGet member ks = ""
  then mdel "key" (mset "receiver" (Value.vStr member) info)
  else mset "key" (Value.vStr (goGet member ks)) (mset "receiver" (Value.vStr member) info)

/-- The `EncryptedMessage.Split` loop: the working map is mutated across
iterations and snapshotted per output (the secure factory accepts every
snapshot, so every member yields an output). -/
def splitLoop (ks : List (String × String)) (info : MsgMap) (members : List String) :
    List MsgMap :=
  match members with
  | [] => []
  | member :: rest =>
    splitStep ks info member :: splitLoop ks (splitStep ks info member) rest

/-- `EncryptedMessage.Split`: save and remove the `keys` table, record the
group identity by moving the current receiver into `group`, then emit one
message per member via `splitLoop` (the secure factory accepts every
snapshot, so no member is dropped). -/
def Split (m : MsgMap) (members : List String) : List MsgMap :=
  let ks := keysOf m
  let base := mdel "keys" m
  let base :=
    match mgetStr "receiver" m with
    | some rcv => mset "group" (Value.vStr rcv) base
    | none => base
  splitLoop ks base members

/-- The `keys` handling of `EncryptedMessage.Trim`: when a `keys` table is
present, promote the member's entry to `key` unless the looked-up string
is empty, then drop the table (any prior `key` is left untouched when no
entry is promoted). -/
def trimKeyStep (m : MsgMap) (member : String) : MsgMap :=
  match mget "keys" m with
  | some (Value.vMap ks) =>
    mdel "keys"
      (if goGet member ks = "" then m else mset "key" (Value.vStr (goGet member ks)) m)
  | _ => m

/-- The `group` handling of `EncryptedMessage.Trim`: when the source map
has no `group`, record the source receiver as the working map's `group`. -/
def trimGroupStep (m info : MsgMap) : MsgMap :=
  match mget "group" m with
  | some _ => info
  | none =>
    match mgetStr "receiver" m with
    | some rcv => mset "group" (Value.vStr rcv) info
    | none => info

/-- `EncryptedMessage.Trim`: promote the member's non-empty `keys` entry to
`key`, drop `keys`, move the receiver into `group` when `group` is absent,
and set `receiver` to the member. -/
def Trim (m : MsgMap) (member : String) : MsgMap :=
  mset "receiver" (Value.vStr member) (trimGroupStep m (trimKeyStep m member))

/-- `PlainMessageFactory.GenerateSerialNumber`: draw a 32-bit random value
and substitute the fixed sentinel `9527 + 9394` when it is zero (the
result is widened to 64 bits, which preserves the value). -/
def GenerateSerialNumber (rnd : Nat) : Nat :=
  let sn := rnd % 4294967296
  if sn = 0 then 9527 + 9394 else sn

/-- The broadcast identifier `ANYONE` of the identity module (an opaque
distinguished constant here, kept as its wire string). -/
def ANYONE : String := "anyone@anywhere"

/-- `MessageEnvelope.Receiver` (factory-parsed envelope): parse the
`receiver` field through the external identifier parser and substitute the
broadcast identifier `ANYONE` when parsing yields nothing, so the accessor
always produces an identifier. -/
def MessageEnvelopeReceiver (idParse : Option Value → Option String) (m : MsgMap) : String :=
  match idParse (mget "receiver" m) with
  | none => ANYONE
  | some r => r

/-- Turn a string into decoded bytes; the codec used by the sample
delegates below. -/
def strBytes (s : String) : Bytes :=
  s.toList.map Char.toNat

/-- A concrete honest delegate used for witnesses and counterexamples: it
decodes strings to their character codes, signs by identity, and accepts a
signature exactly when it equals the data. -/
def testDelegate : Delegate where
  serializeContent := fun _ _ _ => [7]
  encryptContent := fun b _ _ => b
  encodeData := fun _ _ => "DATA64"
  serializeKey := fun _ _ => some [9]
  encryptKey := fun b r _ => match r with | some _ => some b | none => none
  encodeKey := fun _ _ => "KEY64"
  decodeData := fun s _ => some (strBytes s)
  decodeKey := fun s _ => some (strBytes s)
  signData := fun b _ _ => match b with | some x => x | none => []
  encodeSignature := fun b _ => String.mk (b.map Char.ofNat)
  decodeSignature := fun v _ =>
    match v with
    | some (Value.vStr s) => some (strBytes s)
    | _ => none
  verifyDataSignature := fun db sg _ _ => db = sg

/-- A delegate whose key encryption fails for the member `"bob"` and
succeeds for everyone else (the suspended-member scenario of `Encrypt`). -/
def groupDelegate : Delegate :=
  { testDelegate with
    encryptKey := fun b r _ =>
      match r with
      | some "bob" => none
      | some _ => some b
      | none => none }

/-- A delegate whose signature verification always fails. -/
def rejectDelegate : Delegate :=
  { testDelegate with verifyDataSignature := fun _ _ _ _ => false }

/-- A parser of identifier field values: the wire string itself, nothing
for an absent or non-string field. -/
def strIdOf : Option Value → Option String :=
  fun v =>
    match v with
    | some (Value.vStr s) => some s
    | _ => none

/-- A secure message carrying both a group-level `key` and a `keys` entry
for its receiver `bob`. -/
def mapC1 : MsgMap :=
  [("sender", Value.vStr "alice"), ("receiver", Value.vStr "bob"),
   ("data", Value.vStr "D"), ("key", Value.vStr "K1"),
   ("keys", Value.vMap [("bob", "K2")])]

/-- An instant message about to be encrypted for the group `grp`. -/
def mapC2 : MsgMap :=
  [("sender", Value.vStr "alice"), ("receiver", Value.vStr "grp"),
   ("time", Value.vInt 123), ("content", Value.vMap [("text", "hi")])]

/-- The secure message produced by encrypting `mapC2` for `bob` and
`carol` under `groupDelegate` (which has no key for `bob`). -/
def mapC2s : MsgMap :=
  (Encrypt groupDelegate 0 mapC2 (some ["bob", "carol"])).getD []

/-- A group secure message whose `keys` table has an entry for `bob`
holding the empty string. -/
def mapC3 : MsgMap :=
  [("sender", Value.vStr "alice"), ("receiver", Value.vStr "grp"),
   ("data", Value.vStr "D"), ("keys", Value.vMap [("bob", "")])]

/-- A group secure message with a well-formed `keys` table. -/
def mapC3w : MsgMap :=
  [("sender", Value.vStr "alice"), ("receiver", Value.vStr "grp"),
   ("data", Value.vStr "D"), ("keys", Value.vMap [("carol", "KC")])]

/-- A personal secure message (group-level `key`, no `keys` table). -/
def mapC4 : MsgMap :=
  [("sender", Value.vStr "alice"), ("receiver", Value.vStr "grp"),
   ("key", Value.vStr "K0"), ("data", Value.vStr "D")]

/-- A secure message with no `data` and no `sender` but with a
`signature` field. -/
def mapC9 : MsgMap :=
  [("signature", Value.vStr "y"), ("receiver", Value.vStr "bob"),
   ("time", Value.vInt 123)]

/-- A secure message ready to be signed. -/
def mapC5 : MsgMap :=
  [("sender", Value.vStr "alice"), ("receiver", Value.vStr "bob"),
   ("data", Value.vStr "D")]

/-- A reliable message ready to be verified. -/
def mapC6 : MsgMap :=
  [("sender", Value.vStr "alice"), ("receiver", Value.vStr "bob"),
   ("data", Value.vStr "D"), ("signature", Value.vStr "S")]

end DKD

namespace DKD

theorem mget_append (k : String) (l1 l2 : MsgMap) :
    mget k (l1 ++ l2) =
      match mget k l1 with
      | some v => some v
      | none => mget k l2 := by
  induction l1 with
  | nil => simp [mget]
  | cons p rest ih =>
    by_cases h : p.1 = k
    · simp [mget, h]
    · simp [mget, h, ih]

theorem mget_mdel_self (k : String) (m : MsgMap) :
    mget k (mdel k m) = none := by
  induction m with
  | nil => simp [mget, mdel]
  | cons p rest ih =>
    by_cases h : p.1 = k
    · simp [mdel, h, ih]
    · simp [mdel, mget, h, ih]

theorem mget_mdel_ne (k k1 : String) (m : MsgMap) (h : k ≠ k1) :
    mget k (mdel k1 m) = mget k m := by
  have hs : ¬ k1 = k := fun h2 => h h2.symm
  induction m with
  | nil => simp [mdel]
  | cons p rest ih =>
    by_cases h1 : p.1 = k1
    · have h2 : ¬ p.1 = k := by rw [h1]; exact hs
      simp [mdel, mget, h1, h2, hs, ih]
    · by_cases h2 : p.1 = k
      · simp [mdel, mget, h1, h2, h, ih]
      · simp [mdel, mget, h1, h2, ih]

theorem mget_mset_self (k : String) (v : Value) (m : MsgMap) :
    mget k (mset k v m) = some v := by
  simp [mset, mget_append, mget_mdel_self, mget]

theorem mget_mset_ne (k k1 : String) (v : Value) (m : MsgMap) (h : k ≠ k1) :
    mget k (mset k1 v m) = mget k m := by
  have h1 : ¬ k1 = k := fun h2 => h h2.symm
  simp [mset, mget_append, mget_mdel_ne k k1 m h, mget, h1]
  cases mget k m <;> simp

theorem mdel_of_not_hasKey (k : String) (m : MsgMap) (h : hasKey k m = false) :
    mdel k m = m := by
  induction m with
  | nil => simp [mdel]
  | cons p rest ih =>
    by_cases h1 : p.1 = k
    · exfalso
      simp [hasKey, mget, h1] at h
    · simp [hasKey, mget, h1] at h
      simp [mdel, h1, ih]
      exact ih (by simp [hasKey, h])

theorem hasKey_mset_self (k : String) (v : Value) (m : MsgMap) :
    hasKey k (mset k v m) = true := by
  simp [hasKey, mget_mset_self]

theorem hasKey_mset_ne (k k1 : String) (v : Value) (m : MsgMap) (h : k ≠ k1) :
    hasKey k (mset k1 v m) = hasKey k m := by
  simp [hasKey, mget_mset_ne k k1 v m h]

theorem hasKey_mdel_self (k : String) (m : MsgMap) :
    hasKey k (mdel k m) = false := by
  simp [hasKey, mget_mdel_self]

theorem hasKey_mdel_ne (k k1 : String) (m : MsgMap) (h : k ≠ k1) :
    hasKey k (mdel k1 m) = hasKey k m := by
  simp [hasKey, mget_mdel_ne k k1 m h]

theorem mgetStr_mset_ne (k k1 : String) (v : Value) (m : MsgMap) (h : k ≠ k1) :
    mgetStr k (mset k1 v m) = mgetStr k m := by
  simp [mgetStr, mget_mset_ne k k1 v m h]

theorem mgetStr_mdel_ne (k k1 : String) (m : MsgMap) (h : k ≠ k1) :
    mgetStr k (mdel k1 m) = mgetStr k m := by
  simp [mgetStr, mget_mdel_ne k k1 m h]

theorem mdel_append (k : String) (l1 l2 : MsgMap) :
    mdel k (l1 ++ l2) = mdel k l1 ++ mdel k l2 := by
  induction l1 with
  | nil => simp [mdel]
  | cons p rest ih =>
    by_cases h : p.1 = k
    · simp [mdel, h, ih]
    · simp [mdel, h, ih]

theorem mdel_mset_self (k : String) (v : Value) (m : MsgMap) :
    mdel k (mset k v m) = mdel k m := by
  have h1 : hasKey k (mdel k m) = false := hasKey_mdel_self k m
  simp [mset, mdel_append, mdel_of_not_hasKey k (mdel k m) h1, mdel]

/-- Claim C8: the serial-number generator never returns zero; when the
32-bit random draw is zero, the fixed non-zero sentinel `9527 + 9394` is
substituted. -/
theorem C8_serial_number_nonzero (rnd : Nat) :
    GenerateSerialNumber rnd ≠ 0 ∧
      (rnd % 4294967296 = 0 → GenerateSerialNumber rnd = 9527 + 9394) := by
  constructor
  · unfold GenerateSerialNumber
    by_cases h : rnd % 4294967296 = 0 <;> simp [h]
  · intro h
    simp [GenerateSerialNumber, h]

/-- Witness for C8 at the zero and a non-zero draw. -/
theorem C8_serial_number_nonzero_w :
    GenerateSerialNumber 0 = 9527 + 9394 ∧ GenerateSerialNumber 5 ≠ 0 :=
  ⟨(C8_serial_number_nonzero 0).2 (by decide), (C8_serial_number_nonzero 5).1⟩

/-- Claim C9: a map holding `signature` but neither `sender` nor `data` is
rejected by the reliable parser, yet the secure-parse dispatch still
produces a reliable message from it (it applies no mandatory-field
checks). -/
theorem C9_secure_parse_skips_reliable_checks :
    hasKey "sender" mapC9 = false ∧ hasKey "data" mapC9 = false ∧
    ParseSecureMessage mapC9 = ParsedSecure.reliable mapC9 ∧
    ParseReliableMessage mapC9 = none := by decide

/-- Claim C10: when the identifier parser yields nothing for the
`receiver` field (absent or unparseable), the envelope's receiver accessor
substitutes the broadcast identifier `ANYONE`; the accessor is total, so it
never yields nothing. -/
theorem C10_receiver_defaults_to_anyone (idParse : Option Value → Option String)
    (m : MsgMap) (h : idParse (mget "receiver" m) = none) :
    MessageEnvelopeReceiver idParse m = ANYONE := by
  simp [MessageEnvelopeReceiver, h]

/-- Witness for C10 on the empty map with the plain string parser. -/
theorem C10_receiver_defaults_to_anyone_w :
    strIdOf (mget "receiver" ([] : MsgMap)) = none ∧
      MessageEnvelopeReceiver strIdOf ([] : MsgMap) = ANYONE :=
  ⟨by decide, C10_receiver_defaults_to_anyone strIdOf [] (by decide)⟩

/-- Claim C7: each factory parser returns nothing (rather than raising)
exactly when a mandatory key is missing — `sender` for envelopes,
`content` for instant messages, any of `sender` / `data` / `signature`
for reliable messages — and the secure parser dispatches on `signature`::
reliable variant when present, plain secure variant otherwise. -/
theorem C7_parse_rejects_missing_keys (m : MsgMap) :
    (ParseEnvelope m = none ↔ hasKey "sender" m = false) ∧
    (ParseInstantMessage m = none ↔ hasKey "content" m = false) ∧
    (ParseReliableMessage m = none ↔
      (hasKey "sender" m = false ∨ hasKey "data" m = false ∨
        hasKey "signature" m = false)) ∧
    (hasKey "signature" m = true → ParseSecureMessage m = ParsedSecure.reliable m) ∧
    (hasKey "signature" m = false → ParseSecureMessage m = ParsedSecure.plain m) := by
  refine ⟨?_, ?_, ?_, ?_, ?_⟩
  · by_cases h : hasKey "sender" m <;> simp [ParseEnvelope, h]
  · by_cases h : hasKey "content" m <;> simp [ParseInstantMessage, h]
  · by_cases h1 : hasKey "sender" m <;> by_cases h2 : hasKey "data" m <;>
      by_cases h3 : hasKey "signature" m <;> simp [ParseReliableMessage, h1, h2, h3]
  · intro h
    simp [ParseSecureMessage, h]
  · intro h
    simp [ParseSecureMessage, h]

/-- Witness for C7: dispatch and rejection at concrete maps. -/
theorem C7_parse_rejects_missing_keys_w :
    ParseSecureMessage mapC6 = ParsedSecure.reliable mapC6 ∧
    ParseSecureMessage mapC5 = ParsedSecure.plain mapC5 ∧
    ParseEnvelope ([] : MsgMap) = none :=
  ⟨(C7_parse_rejects_missing_keys mapC6).2.2.2.1 (by decide),
   (C7_parse_rejects_missing_keys mapC5).2.2.2.2 (by decide),
   (C7_parse_rejects_missing_keys ([] : MsgMap)).1.mpr (by decide)⟩

/-- Counterexample to claim C1: on a map holding both a `key` field and a
`keys` entry for the receiver, `EncryptedKey` decodes the group-level
`key`, not the per-receiver entry. -/
theorem C1_counterexample_key_wins :
    keysHasEntry "bob" [("bob", "K2")] = true ∧
    EncryptedKey testDelegate mapC1 = testDelegate.decodeKey "K1" mapC1 ∧
    EncryptedKey testDelegate mapC1 ≠ testDelegate.decodeKey "K2" mapC1 := by decide

/-- Claim C1 (amended): when the map contains a string `key` field, the
`EncryptedKey` accessor returns its decode even if `keys` holds an entry
under the receiver's identifier — the group-level `key` takes precedence,
and `keys` is consulted only when `key` is absent. -/
theorem C1_encrypted_key_precedence (d : Delegate) (m : MsgMap) (kv : String)
    (ks : List (String × String)) (rcv : String)
    (h1 : mget "key" m = some (Value.vStr kv))
    (h2 : mget "keys" m = some (Value.vMap ks))
    (h3 : mgetStr "receiver" m = some rcv)
    (h4 : keysHasEntry rcv ks = true) :
    EncryptedKey d m = d.decodeKey kv m := by
  simp [EncryptedKey, h1]

/-- Witness for the amended C1 at the concrete map `mapC1`. -/
theorem C1_encrypted_key_precedence_w :
    EncryptedKey testDelegate mapC1 = testDelegate.decodeKey "K1" mapC1 :=
  C1_encrypted_key_precedence testDelegate mapC1 "K1" [("bob", "K2")] "bob"
    (by decide) (by decide) (by decide) (by decide)

/-- Claim C6: when `data` and `signature` both decode but the delegate's
signature check returns false, `Verify` yields nothing — a rejected
result, not a panic (and, the transformation being a pure function of the
map here, the message's own map is untouched). -/
theorem C6_verify_false_returns_nothing (d : Delegate) (m : MsgMap) (ds : String)
    (db sg : Bytes)
    (h1 : mget "data" m = some (Value.vStr ds))
    (h2 : d.decodeData ds m = some db)
    (h3 : d.decodeSignature (mget "signature" m) m = some sg)
    (h4 : d.verifyDataSignature db sg (mgetStr "sender" m) m = false) :
    Verify d m = VerifyResult.rejected := by
  simp [Verify, h1, h2, h3, h4]

/-- Witness for C6 with the always-rejecting delegate. -/
theorem C6_verify_false_returns_nothing_w :
    Verify rejectDelegate mapC6 = VerifyResult.rejected :=
  C6_verify_false_returns_nothing rejectDelegate mapC6 "D" (strBytes "D") (strBytes "S")
    (by decide) (by decide) (by decide) (by decide)

/-- Claim C5: for a secure message (a map with `sender` and string `data`
and without `signature`), signing adds exactly the `signature` field, and
verifying the signed message — when the delegate accepts the data and
signature its own sign/encode produced — removes exactly that field,
returning the original backing map. -/
theorem C5_sign_verify_roundtrip (d : Delegate) (m : MsgMap) (ds : String)
    (db sg : Bytes)
    (hdata : mget "data" m = some (Value.vStr ds))
    (hsender : hasKey "sender" m = true)
    (hnosig : hasKey "signature" m = false)
    (hdec : d.decodeData ds (signedMap d m ds) = some db)
    (hsig : d.decodeSignature (some (Value.vStr (signedB64 d m ds)))
      (signedMap d m ds) = some sg)
    (hver : d.verifyDataSignature db sg (mgetStr "sender" (signedMap d m ds))
      (signedMap d m ds) = true) :
    Sign d m = some (signedMap d m ds) ∧
      Verify d (signedMap d m ds) = VerifyResult.ok m := by
  have hne1 : "sender" ≠ "signature" := by decide
  have hne2 : "data" ≠ "signature" := by decide
  have h1 : hasKey "sender" (signedMap d m ds) = true := by
    rw [signedMap, hasKey_mset_ne _ _ _ _ hne1]
    exact hsender
  have h2 : hasKey "data" (signedMap d m ds) = true := by
    rw [signedMap, hasKey_mset_ne _ _ _ _ hne2]
    simp [hasKey, hdata]
  have h3 : hasKey "signature" (signedMap d m ds) = true := by
    rw [signedMap]
    exact hasKey_mset_self _ _ _
  have h4 : mget "data" (signedMap d m ds) = some (Value.vStr ds) := by
    rw [signedMap, mget_mset_ne _ _ _ _ hne2]
    exact hdata
  have h5 : mget "signature" (signedMap d m ds) =
      some (Value.vStr (signedB64 d m ds)) := by
    rw [signedMap]
    exact mget_mset_self _ _ _
  have h6 : mdel "signature" (signedMap d m ds) = m := by
    rw [signedMap, mdel_mset_self]
    exact mdel_of_not_hasKey _ _ hnosig
  constructor
  · simp only [Sign, hdata, ParseReliableMessage, h1, h2, h3]
    simp
  · simp only [Verify, h4, hdec, h5, hsig, hver, if_pos, h6]

/-- Witness for C5: the round trip on the concrete secure message `mapC5`
under the honest `testDelegate`. -/
theorem C5_sign_verify_roundtrip_w :
    Sign testDelegate mapC5 = some (signedMap testDelegate mapC5 "D") ∧
      Verify testDelegate (signedMap testDelegate mapC5 "D") = VerifyResult.ok mapC5 :=
  C5_sign_verify_roundtrip testDelegate mapC5 "D" (strBytes "D") (strBytes "D")
    (by decide) (by decide) (by decide) (by decide) (by decide) (by decide)

theorem trimKeyStep_keys (m : MsgMap) (member : String)
    (hwt : keysWellTyped m = true) :
    hasKey "keys" (trimKeyStep m member) = false := by
  cases hks : mget "keys" m with
  | none => simp [trimKeyStep, hks, hasKey]
  | some v =>
    cases v with
    | vStr s => exfalso; simp [keysWellTyped, hks] at hwt
    | vInt n => exfalso; simp [keysWellTyped, hks] at hwt
    | vMap ks => simp [trimKeyStep, hks, hasKey_mdel_self]

theorem trimKeyStep_other (k : String) (m : MsgMap) (member : String)
    (h1 : k ≠ "keys") (h2 : k ≠ "key") :
    mget k (trimKeyStep m member) = mget k m := by
  cases hks : mget "keys" m with
  | none => simp [trimKeyStep, hks]
  | some v =>
    cases v with
    | vStr s => simp [trimKeyStep, hks]
    | vInt n => simp [trimKeyStep, hks]
    | vMap ks =>
      by_cases hb : goGet member ks = ""
      · simp only [trimKeyStep, hks, if_pos hb]
        rw [mget_mdel_ne k "keys" _ h1]
      · simp only [trimKeyStep, hks, if_neg hb]
        rw [mget_mdel_ne k "keys" _ h1, mget_mset_ne k "key" _ _ h2]

theorem trimKeyStep_key_promoted (m : MsgMap) (member : String)
    (h : goGet member (keysOf m) ≠ "") :
    mget "key" (trimKeyStep m member) = some (Value.vStr (goGet member (keysOf m))) := by
  cases hks : mget "keys" m with
  | none => exfalso; exact h (by simp [keysOf, hks, goGet])
  | some v =>
    cases v with
    | vStr s => exfalso; exact h (by simp [keysOf, hks, goGet])
    | vInt n => exfalso; exact h (by simp [keysOf, hks, goGet])
    | vMap ks =>
      have hkeq : keysOf m = ks := by simp [keysOf, hks]
      have hb : goGet member ks ≠ "" := by rw [hkeq] at h; exact h
      simp only [trimKeyStep, hks, if_neg hb]
      rw [mget_mdel_ne "key" "keys" _ (by decide), mget_mset_self, hkeq]

theorem trimKeyStep_key_kept (m : MsgMap) (member : String)
    (h : goGet member (keysOf m) = "") :
    hasKey "key" (trimKeyStep m member) = hasKey "key" m := by
  cases hks : mget "keys" m with
  | none => simp [trimKeyStep, hks]
  | some v =>
    cases v with
    | vStr s => simp [trimKeyStep, hks]
    | vInt n => simp [trimKeyStep, hks]
    | vMap ks =>
      have hkeq : keysOf m = ks := by simp [keysOf, hks]
      have hb : goGet member ks = "" := by rw [hkeq] at h; exact h
      simp only [trimKeyStep, hks, if_pos hb]
      rw [hasKey_mdel_ne "key" "keys" _ (by decide)]

theorem trimGroupStep_group_some (m info : MsgMap) (g : Value)
    (hg : mget "group" m = some g) :
    trimGroupStep m info = info := by
  simp [trimGroupStep, hg]

theorem trimGroupStep_group_none (m info : MsgMap) (rcv : String)
    (hg : mget "group" m = none) (hrcv : mgetStr "receiver" m = some rcv) :
    trimGroupStep m info = mset "group" (Value.vStr rcv) info := by
  simp [trimGroupStep, hg, hrcv]

/-- Counterexample to claim C4: trimming a secure message that carries a
group-level `key` but whose `keys` table has no entry for the member still
leaves a `key` entry in the result (the prior `key` is retained), whereas
the claim requires a `key` entry exactly when `keys` had one for the
member. -/
theorem C4_counterexample_prior_key_kept :
    keysHasEntry "bob" (keysOf mapC4) = false ∧
      hasKey "key" (Trim mapC4 "bob") = true := by decide

/-- Claim C4 (amended): `Trim` sets `receiver` to the member, keeps a prior
`group` and otherwise records the original receiver as `group`, removes
`keys`, and its result carries a `key` entry iff the `keys` table held a
non-empty entry for the member (which is promoted to `key`) or the source
already carried a `key` entry (which is retained; an empty `keys` entry is
treated as missing). -/
theorem C4_trim_fields (m : MsgMap) (member rcv : String)
    (hwt : keysWellTyped m = true)
    (hrcv : mgetStr "receiver" m = some rcv) :
    mget "receiver" (Trim m member) = some (Value.vStr member) ∧
    (∀ g, mget "group" m = some g → mget "group" (Trim m member) = some g) ∧
    (mget "group" m = none → mget "group" (Trim m member) = some (Value.vStr rcv)) ∧
    hasKey "keys" (Trim m member) = false ∧
    (hasKey "key" (Trim m member) = true ↔
      (goGet member (keysOf m) ≠ "" ∨ hasKey "key" m = true)) ∧
    (goGet member (keysOf m) ≠ "" →
      mget "key" (Trim m member) = some (Value.vStr (goGet member (keysOf m)))) := by
  refine ⟨?_, ?_, ?_, ?_, ?_, ?_⟩
  · rw [Trim, mget_mset_self]
  · intro g hg
    rw [Trim, mget_mset_ne "group" "receiver" _ _ (by decide),
      trimGroupStep_group_some m _ g hg,
      trimKeyStep_other "group" m member (by decide) (by decide)]
    exact hg
  · intro hg
    rw [Trim, mget_mset_ne "group" "receiver" _ _ (by decide),
      trimGroupStep_group_none m _ rcv hg hrcv, mget_mset_self]
  · rw [Trim, hasKey_mset_ne "keys" "receiver" _ _ (by decide)]
    cases hg : mget "group" m with
    | some g =>
      rw [trimGroupStep_group_some m _ g hg]
      exact trimKeyStep_keys m member hwt
    | none =>
      rw [trimGroupStep_group_none m _ rcv hg hrcv,
        hasKey_mset_ne "keys" "group" _ _ (by decide)]
      exact trimKeyStep_keys m member hwt
  · have hkey : hasKey "key" (Trim m member) = hasKey "key" (trimKeyStep m member) := by
      rw [Trim, hasKey_mset_ne "key" "receiver" _ _ (by decide)]
      cases hg : mget "group" m with
      | some g => rw [trimGroupStep_group_some m _ g hg]
      | none =>
        rw [trimGroupStep_group_none m _ rcv hg hrcv,
          hasKey_mset_ne "key" "group" _ _ (by decide)]
    by_cases hb : goGet member (keysOf m) = ""
    · rw [hkey, trimKeyStep_key_kept m member hb]
      simp [hb]
    · rw [hkey]
      have h1 := trimKeyStep_key_promoted m member hb
      simp [hasKey, h1, hb]
  · intro hb
    rw [Trim, mget_mset_ne "key" "receiver" _ _ (by decide)]
    cases hg : mget "group" m with
    | some g =>
      rw [trimGroupStep_group_some m _ g hg]
      exact trimKeyStep_key_promoted m member hb
    | none =>
      rw [trimGroupStep_group_none m _ rcv hg hrcv,
        mget_mset_ne "key" "group" _ _ (by decide)]
      exact trimKeyStep_key_promoted m member hb

/-- Witness for the amended C4: trimming `mapC3w` for `carol` promotes her
`keys` entry and drops the table. -/
theorem C4_trim_fields_w :
    mget "receiver" (Trim mapC3w "carol") = some (Value.vStr "carol") ∧
    mget "group" (Trim mapC3w "carol") = some (Value.vStr "grp") ∧
    hasKey "keys" (Trim mapC3w "carol") = false ∧
    mget "key" (Trim mapC3w "carol") = some (Value.vStr "KC") :=
  have h := C4_trim_fields mapC3w "carol" "grp" (by decide) (by decide)
  ⟨h.1, h.2.2.1 (by decide), h.2.2.2.1, h.2.2.2.2.2 (by decide)⟩

theorem splitStep_receiver (ks : List (String × String)) (info : MsgMap)
    (member : String) :
    mget "receiver" (splitStep ks info member) = some (Value.vStr member) := by
  by_cases hb : goGet member ks = ""
  · simp only [splitStep, if_pos hb]
    rw [mget_mdel_ne "receiver" "key" _ (by decide), mget_mset_self]
  · simp only [splitStep, if_neg hb]
    rw [mget_mset_ne "receiver" "key" _ _ (by decide), mget_mset_self]

theorem splitStep_group (ks : List (String × String)) (info : MsgMap)
    (member : String) (gv : Value) (hg : mget "group" info = some gv) :
    mget "group" (splitStep ks info member) = some gv := by
  by_cases hb : goGet member ks = ""
  · simp only [splitStep, if_pos hb]
    rw [mget_mdel_ne "group" "key" _ (by decide),
      mget_mset_ne "group" "receiver" _ _ (by decide)]
    exact hg
  · simp only [splitStep, if_neg hb]
    rw [mget_mset_ne "group" "key" _ _ (by decide),
      mget_mset_ne "group" "receiver" _ _ (by decide)]
    exact hg

theorem splitStep_key_empty (ks : List (String × String)) (info : MsgMap)
    (member : String) (hb : goGet member ks = "") :
    hasKey "key" (splitStep ks info member) = false := by
  simp only [splitStep, if_pos hb]
  exact hasKey_mdel_self _ _

theorem splitStep_key_present (ks : List (String × String)) (info : MsgMap)
    (member : String) (hb : goGet member ks ≠ "") :
    mget "key" (splitStep ks info member) = some (Value.vStr (goGet member ks)) := by
  simp only [splitStep, if_neg hb]
  exact mget_mset_self _ _ _

theorem splitLoop_length (ks : List (String × String)) (members : List String)
    (info : MsgMap) :
    (splitLoop ks info members).length = members.length := by
  induction members generalizing info with
  | nil => simp [splitLoop]
  | cons member rest ih => simp [splitLoop, ih]

theorem splitLoop_spec (ks : List (String × String)) (members : List String)
    (info : MsgMap) (gv : Value) (hg : mget "group" info = some gv) :
    ∀ i, i < members.length →
      (mget "receiver" ((splitLoop ks info members).getD i []) =
        some (Value.vStr (members.getD i "")) ∧
       mget "group" ((splitLoop ks info members).getD i []) = some gv ∧
       (goGet (members.getD i "") ks = "" →
         hasKey "key" ((splitLoop ks info members).getD i []) = false) ∧
       (goGet (members.getD i "") ks ≠ "" →
         mget "key" ((splitLoop ks info members).getD i []) =
           some (Value.vStr (goGet (members.getD i "") ks)))) := by
  induction members generalizing info with
  | nil =>
    intro i hi
    exact absurd hi (by simp)
  | cons member rest ih =>
    intro i hi
    cases i with
    | zero =>
      simp only [splitLoop, List.getD_cons_zero]
      refine ⟨splitStep_receiver ks info member, splitStep_group ks info member gv hg, ?_, ?_⟩
      · intro hb
        exact splitStep_key_empty ks info member hb
      · intro hb
        exact splitStep_key_present ks info member hb
    | succ j =>
      have hj : j < rest.length := by
        simp at hi
        omega
      have hg1 : mget "group" (splitStep ks info member) = some gv :=
        splitStep_group ks info member gv hg
      have h := ih (splitStep ks info member) hg1 j hj
      simpa only [splitLoop, List.getD_cons_succ] using h

/-- Counterexample to claim C3: splitting a message whose `keys` table
holds an entry for `bob` that is the empty string produces an output with
no `key` entry, whereas the claim requires a `key` entry equal to the
table entry whenever one exists. -/
theorem C3_counterexample_empty_entry :
    keysHasEntry "bob" (keysOf mapC3) = true ∧
      (Split mapC3 ["bob"]).length = 1 ∧
      hasKey "key" ((Split mapC3 ["bob"]).getD 0 []) = false := by decide

/-- Claim C3 (amended): `Split` returns exactly one message per member;
the i-th output's `receiver` is the i-th member and its `group` is the
original receiver, and it carries a `key` entry — equal to the original
`keys` entry for that member — exactly when that entry exists and is
non-empty (an absent or empty entry leaves the output without `key`). -/
theorem C3_split_fields (m : MsgMap) (members : List String) (rcv : String)
    (hwt : keysWellTyped m = true)
    (hrcv : mgetStr "receiver" m = some rcv) :
    (Split m members).length = members.length ∧
    ∀ i, i < members.length →
      (mget "receiver" ((Split m members).getD i []) =
        some (Value.vStr (members.getD i "")) ∧
       mget "group" ((Split m members).getD i []) = some (Value.vStr rcv) ∧
       (goGet (members.getD i "") (keysOf m) = "" →
         hasKey "key" ((Split m members).getD i []) = false) ∧
       (goGet (members.getD i "") (keysOf m) ≠ "" →
         mget "key" ((Split m members).getD i []) =
           some (Value.vStr (goGet (members.getD i "") (keysOf m))))) := by
  have hbase : mget "group" (mset "group" (Value.vStr rcv) (mdel "keys" m)) =
      some (Value.vStr rcv) := mget_mset_self _ _ _
  constructor
  · simp only [Split, hrcv]
    exact splitLoop_length (keysOf m) members _
  · simp only [Split, hrcv]
    exact splitLoop_spec (keysOf m) members _ (Value.vStr rcv) hbase

/-- Witness for the amended C3: splitting `mapC3w` for `bob` (no key
entry) and `carol` (entry `KC`). -/
theorem C3_split_fields_w :
    (Split mapC3w ["bob", "carol"]).length = 2 ∧
    mget "receiver" ((Split mapC3w ["bob", "carol"]).getD 0 []) =
      some (Value.vStr "bob") ∧
    mget "group" ((Split mapC3w ["bob", "carol"]).getD 0 []) =
      some (Value.vStr "grp") ∧
    hasKey "key" ((Split mapC3w ["bob", "carol"]).getD 0 []) = false ∧
    mget "key" ((Split mapC3w ["bob", "carol"]).getD 1 []) =
      some (Value.vStr "KC") :=
  have h := C3_split_fields mapC3w ["bob", "carol"] "grp" (by decide) (by decide)
  ⟨h.1, (h.2 0 (by decide)).1, (h.2 0 (by decide)).2.1,
   (h.2 0 (by decide)).2.2.1 (by decide), (h.2 1 (by decide)).2.2.2 (by decide)⟩

theorem encryptMemberKeys_eq_nil_iff (d : Delegate) (key : Bytes)
    (mems : List String) (m : MsgMap) :
    encryptMemberKeys d key mems m = [] ↔
      ∀ mem ∈ mems, d.encryptKey key (some mem) m = none := by
  induction mems with
  | nil => simp [encryptMemberKeys]
  | cons mem rest ih =>
    cases hek : d.encryptKey key (some mem) m with
    | none => simp [encryptMemberKeys, hek, ih]
    | some ek => simp [encryptMemberKeys, hek]

/-- Claim C2: a successful `Encrypt` of a well-formed instant message (no
stray `key`/`keys` fields) yields a map without `content` and with `data`;
it carries `key` exactly when `members` was null and the symmetric key was
serialized and encrypted for the receiver, and `keys` exactly when
`members` was non-null and at least one member's key encryption succeeded
— members whose key encryption yields nothing are skipped without failing
the whole operation. -/
theorem C2_encrypt_fields (d : Delegate) (pw : Password) (m : MsgMap)
    (members : Option (List String)) (s : MsgMap)
    (hkey : hasKey "key" m = false)
    (hkeys : hasKey "keys" m = false)
    (henc : Encrypt d pw m members = some s) :
    hasKey "content" s = false ∧
    hasKey "data" s = true ∧
    (hasKey "key" s = true ↔
      (members = none ∧ ∃ k ek, d.serializeKey pw m = some k ∧
        d.encryptKey k (mgetStr "receiver" m) m = some ek)) ∧
    (hasKey "keys" s = true ↔
      (∃ mems k, members = some mems ∧ d.serializeKey pw m = some k ∧
        ∃ mem ∈ mems, (d.encryptKey k (some mem) m).isSome = true)) := by
  have hic : hasKey "content" (encryptedInfo d pw m) = false := by
    rw [encryptedInfo, hasKey_mset_ne "content" "data" _ _ (by decide), hasKey_mdel_self]
  have hid : hasKey "data" (encryptedInfo d pw m) = true := by
    rw [encryptedInfo]
    exact hasKey_mset_self _ _ _
  have hik : hasKey "key" (encryptedInfo d pw m) = false := by
    rw [encryptedInfo, hasKey_mset_ne "key" "data" _ _ (by decide),
      hasKey_mdel_ne "key" "content" _ (by decide)]
    exact hkey
  have hiks : hasKey "keys" (encryptedInfo d pw m) = false := by
    rw [encryptedInfo, hasKey_mset_ne "keys" "data" _ _ (by decide),
      hasKey_mdel_ne "keys" "content" _ (by decide)]
    exact hkeys
  cases hser : d.serializeKey pw m with
  | none =>
    simp only [Encrypt, hser] at henc
    have hs := Option.some.inj henc
    subst hs
    refine ⟨hic, hid, ?_, ?_⟩
    · simp [hik, hser]
    · simp [hiks, hser]
  | some key =>
    cases members with
    | none =>
      cases hek : d.encryptKey key (mgetStr "receiver" m) m with
      | none =>
        simp only [Encrypt, hser, hek] at henc
        exact Option.noConfusion henc
      | some ek =>
        simp only [Encrypt, hser, hek] at henc
        have hs := Option.some.inj henc
        subst hs
        refine ⟨?_, ?_, ?_, ?_⟩
        · rw [hasKey_mset_ne "content" "key" _ _ (by decide)]
          exact hic
        · rw [hasKey_mset_ne "data" "key" _ _ (by decide)]
          exact hid
        · exact ⟨fun _ => ⟨rfl, key, ek, rfl, hek⟩, fun _ => hasKey_mset_self _ _ _⟩
        · rw [hasKey_mset_ne "keys" "key" _ _ (by decide), hiks]
          simp
    | some mems =>
      by_cases hemp : (encryptMemberKeys d key mems m).isEmpty = true
      · simp only [Encrypt, hser, if_pos hemp] at henc
        have hs := Option.some.inj henc
        subst hs
        have hnil : encryptMemberKeys d key mems m = [] := by
          cases h0 : encryptMemberKeys d key mems m with
          | nil => rfl
          | cons a t =>
            rw [h0] at hemp
            simp [List.isEmpty] at hemp
        have hall := (encryptMemberKeys_eq_nil_iff d key mems m).mp hnil
        refine ⟨hic, hid, ?_, ?_⟩
        · simp [hik]
        · rw [hiks]
          constructor
          · intro h0
            cases h0
          · rintro ⟨mems2, k2, hm2, hk2, mem, hmem, hsome⟩
            have hm2e : mems2 = mems := (Option.some.inj hm2.symm)
            have hk2e : k2 = key := (Option.some.inj hk2).symm
            subst hm2e
            subst hk2e
            rw [hall mem hmem] at hsome
            cases hsome
      · simp only [Encrypt, hser, if_neg hemp] at henc
        have hs := Option.some.inj henc
        subst hs
        have hne : encryptMemberKeys d key mems m ≠ [] := by
          intro h0
          rw [h0] at hemp
          exact hemp rfl
        have hx : ¬ ∀ mem ∈ mems, d.encryptKey key (some mem) m = none :=
          fun hall => hne ((encryptMemberKeys_eq_nil_iff d key mems m).mpr hall)
        push_neg at hx
        obtain ⟨mem, hmem, hnn⟩ := hx
        refine ⟨?_, ?_, ?_, ?_⟩
        · rw [hasKey_mset_ne "content" "keys" _ _ (by decide)]
          exact hic
        · rw [hasKey_mset_ne "data" "keys" _ _ (by decide)]
          exact hid
        · rw [hasKey_mset_ne "key" "keys" _ _ (by decide), hik]
          simp
        · refine ⟨fun _ => ⟨mems, key, rfl, rfl, mem, hmem, ?_⟩,
            fun _ => hasKey_mset_self _ _ _⟩
          exact Option.isSome_iff_ne_none.mpr hnn

/-- Witness for C2: encrypting `mapC2` for the group `bob`/`carol` under a
delegate with no key for `bob` still succeeds, producing a message with
`data` and a `keys` table but no `content` and no `key`. -/
theorem C2_encrypt_fields_w :
    Encrypt groupDelegate 0 mapC2 (some ["bob", "carol"]) = some mapC2s ∧
    hasKey "content" mapC2s = false ∧
    hasKey "data" mapC2s = true ∧
    hasKey "keys" mapC2s = true ∧
    hasKey "key" mapC2s = false :=
  have h := C2_encrypt_fields groupDelegate 0 mapC2 (some ["bob", "carol"]) mapC2s
    (by decide) (by decide) (by decide)
  ⟨by decide, h.1, h.2.1,
   h.2.2.2.mpr ⟨["bob", "carol"], [9], rfl, by decide, "carol", by decide, by decide⟩,
   by decide⟩

end DKD
